import Mathlib

/-!
Verification development for the PIO decomposition / rearranger subsystem of
the CESM repository.  The repository ships the test harnesses
(tests/cunit/test_simple.c, tests/ncint/tst_var_compress.c) and the global MPI
error buffer (src/clib/pio_error.c); the redistribution engine itself is
described by the specification, so its operations are modelled here from the
specification's words and checked against the behaviour the tests demand.
-/

namespace PIO

/-- Rearranger strategy tag: Box assumes contiguous per-I/O-process boxes,
Subset uses a modulo ownership rule. -/
inductive Rearranger where
  | box
  | subset
deriving DecidableEq, Repr

/-- Error taxonomy of the subsystem (the kinds the claims exercise). -/
inductive PIOError where
  | InvalidDecomposition
  | MissingFrame
  | ShapeMismatch
deriving DecidableEq, Repr

/-- Number of occurrences of a global offset in an index-map list. -/
def countOcc (g : Int) : List Int → Nat
  | [] => 0
  | x :: xs => (if x = g then 1 else 0) + countOcc g xs

/-- Modelled from the spec: value held at global offset g by one compute
process, given its Index Map m and local buffer b.  When several local
positions map to the same offset the last one wins (a deterministic
double-write policy, §7/§9 of the spec). -/
def lookupPair : List Int → List Int → Int → Option Int
  | x :: m, y :: b, g =>
      match lookupPair m b g with
      | some v => some v
      | none => if x = g then some y else none
  | _, _, _ => none

/-- Modelled from the spec: value held at global offset g across all compute
processes (rank order; the highest-rank writer wins on overlap, the
deterministic policy suggested in §9). -/
def lookupGlobal : List (List Int) → List (List Int) → Int → Option Int
  | m :: ms, b :: bs, g =>
      match lookupGlobal ms bs g with
      | some v => some v
      | none => lookupPair m b g
  | _, _, _ => none

theorem countOcc_append (g : Int) (l₁ l₂ : List Int) :
    countOcc g (l₁ ++ l₂) = countOcc g l₁ + countOcc g l₂ := by
  induction l₁ with
  | nil => simp [countOcc]
  | cons x xs ih => simp [countOcc, ih]; omega

theorem lookupPair_of_countOcc_zero (m b : List Int) (g : Int)
    (h : countOcc g m = 0) : lookupPair m b g = none := by
  induction m generalizing b with
  | nil => cases b <;> rfl
  | cons x xs ih =>
      cases b with
      | nil => rfl
      | cons y ys =>
          simp only [countOcc] at h
          have hx : ¬ x = g := by
            intro hxg; simp [hxg] at h
          have hxs : countOcc g xs = 0 := by
            simp [hx] at h; exact h
          simp [lookupPair, ih ys hxs, hx]

theorem countOcc_pos_of_getD (m : List Int) (g : Int) (i : Nat)
    (hi : i < m.length) (hg : m.getD i 0 = g) : 1 ≤ countOcc g m := by
  induction m generalizing i with
  | nil => simp at hi
  | cons z zs ih =>
      cases i with
      | zero =>
          simp only [List.getD_cons_zero] at hg
          simp [countOcc, hg]
      | succ j =>
          have := ih j (by simp at hi; omega) (by simpa using hg)
          simp only [countOcc]
          omega

theorem countOcc_flatten_pos_of_getD (ms : List (List Int)) (g : Int)
    (q i : Nat) (hq : q < ms.length) (hi : i < (ms.getD q []).length)
    (hg : (ms.getD q []).getD i 0 = g) : 1 ≤ countOcc g ms.flatten := by
  induction ms generalizing q with
  | nil => simp at hq
  | cons w ws ih =>
      rw [List.flatten_cons, countOcc_append]
      cases q with
      | zero =>
          simp only [List.getD_cons_zero] at hi hg
          have := countOcc_pos_of_getD w g i hi hg
          omega
      | succ q' =>
          simp only [List.getD_cons_succ] at hi hg
          have := ih q' (by simp at hq; omega) hi hg
          omega

theorem lookupPair_of_countOcc_one (m b : List Int) (g : Int) (i : Nat)
    (hi : i < m.length) (hlen : b.length = m.length)
    (h1 : countOcc g m = 1) (hg : m.getD i 0 = g) :
    lookupPair m b g = some (b.getD i 0) := by
  induction m generalizing b i with
  | nil => simp at hi
  | cons x xs ih =>
      cases b with
      | nil => simp at hlen
      | cons y ys =>
          simp only [List.length_cons] at hlen hi
          cases i with
          | zero =>
              simp only [List.getD_cons_zero] at hg
              have hxs : countOcc g xs = 0 := by
                simp [countOcc, hg] at h1
                omega
              simp [lookupPair, lookupPair_of_countOcc_zero xs ys g hxs, hg]
          | succ j =>
              have hj : j < xs.length := by omega
              have hgx : xs.getD j 0 = g := by
                simpa using hg
              have hmem : 1 ≤ countOcc g xs := countOcc_pos_of_getD xs g j hj hgx
              have hx : ¬ x = g := by
                intro hxg
                simp [countOcc, hxg] at h1
                omega
              have hxs1 : countOcc g xs = 1 := by
                simp [countOcc, hx] at h1; exact h1
              have hrec := ih ys j hj (by omega) hxs1 hgx
              simp only [List.getD_cons_succ]
              simp [lookupPair, hrec]

theorem lookupGlobal_of_countOcc_zero (ms bs : List (List Int)) (g : Int)
    (h : countOcc g ms.flatten = 0) : lookupGlobal ms bs g = none := by
  induction ms generalizing bs with
  | nil => cases bs <;> rfl
  | cons m ms' ih =>
      cases bs with
      | nil => rfl
      | cons b bs' =>
          rw [List.flatten_cons, countOcc_append] at h
          have hm : countOcc g m = 0 := by omega
          have hms : countOcc g ms'.flatten = 0 := by omega
          simp [lookupGlobal, ih bs' hms, lookupPair_of_countOcc_zero m b g hm]

/-- Central characterisation: when the union of all Index Maps covers offset g
exactly once, and process p holds g at local position i, the gathered value at
g is exactly process p's buffer element i. -/
theorem lookupGlobal_of_countOcc_one (ms bs : List (List Int)) (g : Int)
    (p i : Nat) (hp : p < ms.length) (hlen : bs.length = ms.length)
    (hlens : ∀ q, q < ms.length → (bs.getD q []).length = (ms.getD q []).length)
    (h1 : countOcc g ms.flatten = 1)
    (hg : (ms.getD p []).getD i 0 = g) (hi : i < (ms.getD p []).length) :
    lookupGlobal ms bs g = some ((bs.getD p []).getD i 0) := by
  induction ms generalizing bs p with
  | nil => simp at hp
  | cons m ms' ih =>
      cases bs with
      | nil => simp at hlen
      | cons b bs' =>
          rw [List.flatten_cons, countOcc_append] at h1
          cases p with
          | zero =>
              simp only [List.getD_cons_zero] at hg hi
              have hmem : 1 ≤ countOcc g m := countOcc_pos_of_getD m g i hi hg
              have hms : countOcc g ms'.flatten = 0 := by omega
              have hm1 : countOcc g m = 1 := by omega
              have hb : b.length = m.length := by
                have := hlens 0 (by simp)
                simpa using this
              simp [lookupGlobal, lookupGlobal_of_countOcc_zero ms' bs' g hms,
                lookupPair_of_countOcc_one m b g i hi hb hm1 hg]
          | succ q =>
              simp only [List.getD_cons_succ] at hg hi
              have hq : q < ms'.length := by simp at hp; omega
              have hmem : 1 ≤ countOcc g ms'.flatten :=
                countOcc_flatten_pos_of_getD ms' g q i hq hi hg
              have h1' : countOcc g ms'.flatten = 1 := by omega
              have hrec := ih bs' q hq (by simp at hlen; omega)
                (fun r hr => by
                  have := hlens (r + 1) (by simp; omega)
                  simpa using this)
                h1' hg hi
              simp only [List.getD_cons_succ]
              simp [lookupGlobal, hrec]

/-- Modelled from the spec (§4.2): length of the contiguous box owned by I/O
process k when a global array of n elements is split over nio I/O processes
(block distribution, remainder spread over the first boxes). -/
def boxLen (n nio k : Nat) : Nat := n / nio + if k < n % nio then 1 else 0

/-- Modelled from the spec (§4.2): first global offset of I/O process k's
box, computed analytically from the global size and I/O-group size. -/
def boxStart (n nio k : Nat) : Nat := k * (n / nio) + min k (n % nio)

theorem boxStart_zero (n nio : Nat) : boxStart n nio 0 = 0 := by
  simp [boxStart]

theorem boxStart_succ (n nio k : Nat) :
    boxStart n nio (k + 1) = boxStart n nio k + boxLen n nio k := by
  simp only [boxStart, boxLen, Nat.succ_mul]
  split <;> omega

theorem boxStart_top (n nio : Nat) (h : 0 < nio) : boxStart n nio nio = n := by
  have hmod : n % nio < nio := Nat.mod_lt _ h
  have hdm := Nat.div_add_mod n nio
  simp only [boxStart]
  omega

/-- Modelled from the spec (§4.2): the aggregated buffer assembled on I/O
process k under the Box strategy — the values of the global offsets of its
box, in ascending global-offset order. -/
def aggBufBox (n nio : Nat) (maps bufs : List (List Int)) (k : Nat) :
    List (Option Int) :=
  (List.range (boxLen n nio k)).map
    (fun j => lookupGlobal maps bufs ((boxStart n nio k + j : Nat) : Int))

/-- Modelled from the spec (§4.2, §4.5): global record content produced by a
Box-strategy write — each I/O process writes its aggregated box at its box
start, and the boxes tile the array. -/
def fileWriteBox (n nio : Nat) (maps bufs : List (List Int)) :
    List (Option Int) :=
  ((List.range nio).map (aggBufBox n nio maps bufs)).flatten

/-- Modelled from the spec (§4.3): number of global offsets owned by I/O
process k under the Subset modulo rule. -/
def subLen (n nio k : Nat) : Nat := if k < n then (n - 1 - k) / nio + 1 else 0

/-- Modelled from the spec (§4.3): the aggregated buffer assembled on I/O
process k under the Subset strategy — the values of the global offsets with
residue k, in ascending global-offset order. -/
def aggBufSubset (n nio : Nat) (maps bufs : List (List Int)) (k : Nat) :
    List (Option Int) :=
  (List.range (subLen n nio k)).map
    (fun j => lookupGlobal maps bufs ((k + j * nio : Nat) : Int))

/-- Modelled from the spec (§4.3, §4.5): global record content produced by a
Subset-strategy write — offset g is delivered by I/O process g % nio from
position g / nio of its aggregated buffer. -/
def fileWriteSubset (n nio : Nat) (maps bufs : List (List Int)) :
    List (Option Int) :=
  (List.range n).map
    (fun g => (aggBufSubset n nio maps bufs (g % nio)).getD (g / nio) none)

/-- Modelled from the spec (§4.5): global record content produced by one
collective write under the given rearranger strategy. -/
def fileWrite (strat : Rearranger) (n nio : Nat)
    (maps bufs : List (List Int)) : List (Option Int) :=
  match strat with
  | .box => fileWriteBox n nio maps bufs
  | .subset => fileWriteSubset n nio maps bufs

/-- Reference gather: global record content described pointwise. -/
def gatherFile (n : Nat) (maps bufs : List (List Int)) : List (Option Int) :=
  (List.range n).map (fun g : Nat => lookupGlobal maps bufs (g : Int))

theorem getD_range_map {α : Type} (f : Nat → α) (L j : Nat) (d : α)
    (h : j < L) : ((List.range L).map f).getD j d = f j := by
  rw [List.getD_eq_getElem?_getD, List.getElem?_map, List.getElem?_range h]
  rfl

theorem flatten_blocks {α : Type} (f : Nat → α) (len start : Nat → Nat)
    (h0 : start 0 = 0) (hs : ∀ k, start (k + 1) = start k + len k) :
    ∀ t, ((List.range t).map
        (fun k => (List.range (len k)).map (fun j => f (start k + j)))).flatten
      = (List.range (start t)).map f := by
  intro t
  induction t with
  | zero => simp [h0]
  | succ t ih =>
      rw [List.range_succ, List.map_append, List.flatten_append, ih,
        hs t, List.range_add, List.map_append]
      simp [Function.comp]

theorem fileWriteBox_eq_gather (n nio : Nat) (maps bufs : List (List Int))
    (h : 0 < nio) : fileWriteBox n nio maps bufs = gatherFile n maps bufs := by
  unfold fileWriteBox aggBufBox gatherFile
  rw [flatten_blocks (fun g => lookupGlobal maps bufs (g : Int))
    (boxLen n nio) (boxStart n nio) (boxStart_zero n nio)
    (boxStart_succ n nio) nio, boxStart_top n nio h]

theorem fileWriteSubset_eq_gather (n nio : Nat) (maps bufs : List (List Int))
    (h : 0 < nio) :
    fileWriteSubset n nio maps bufs = gatherFile n maps bufs := by
  unfold fileWriteSubset aggBufSubset gatherFile
  apply List.map_congr_left
  intro g hg
  rw [List.mem_range] at hg
  have hk : g % nio < n := lt_of_le_of_lt (Nat.mod_le g nio) hg
  have hj : g / nio < subLen n nio (g % nio) := by
    unfold subLen
    rw [if_pos hk]
    have hmul : g / nio * nio ≤ n - 1 - g % nio := by
      have := Nat.div_add_mod g nio
      have hcomm : g / nio * nio = nio * (g / nio) := Nat.mul_comm _ _
      have hgle : g ≤ n - 1 := by omega
      omega
    have := (Nat.le_div_iff_mul_le h).mpr hmul
    omega
  rw [getD_range_map _ _ _ _ hj]
  congr 1
  have := Nat.div_add_mod g nio
  have hcomm : g / nio * nio = nio * (g / nio) := Nat.mul_comm _ _
  omega

theorem fileWrite_eq_gather (strat : Rearranger) (n nio : Nat)
    (maps bufs : List (List Int)) (h : 0 < nio) :
    fileWrite strat n nio maps bufs = gatherFile n maps bufs := by
  cases strat with
  | box => exact fileWriteBox_eq_gather n nio maps bufs h
  | subset => exact fileWriteSubset_eq_gather n nio maps bufs h

/-- Modelled from the spec (§4.5): the backward rearrangement on one compute
process — element i of the local out-buffer is the file value at the global
offset its Index Map assigns to position i. -/
def readLocal (file : List (Option Int)) (m : List Int) : List (Option Int) :=
  m.map (fun v => file.getD v.toNat none)

/-- Modelled from the spec (§4.5): a full collective write of all local
buffers followed by a collective read with the same decomposition, returning
every compute process's out-buffer. -/
def roundtrip (strat : Rearranger) (n nio : Nat)
    (maps bufs : List (List Int)) : List (List (Option Int)) :=
  maps.map (readLocal (fileWrite strat n nio maps bufs))

/-- Index Maps of a decomposition cover each global offset exactly once. -/
def ExactCover (n : Nat) (maps : List (List Int)) : Prop :=
  ∀ g : Nat, g < n → countOcc (g : Int) maps.flatten = 1

/-- All Index Map entries fall inside the global array. -/
def InRange (n : Nat) (maps : List (List Int)) : Prop :=
  ∀ v ∈ maps.flatten, 0 ≤ v ∧ v < (n : Int)

/-- Every local buffer has the length of its process's Index Map. -/
def LengthsMatch (maps bufs : List (List Int)) : Prop :=
  bufs.length = maps.length ∧
  ∀ q, q < maps.length → (bufs.getD q []).length = (maps.getD q []).length

theorem getD_map {α β : Type} (f : α → β) (l : List α) (p : Nat)
    (hp : p < l.length) (d : α) (e : β) :
    (l.map f).getD p e = f (l.getD p d) := by
  induction l generalizing p with
  | nil => simp at hp
  | cons x xs ih =>
      cases p with
      | zero => rfl
      | succ q =>
          simp only [List.map_cons, List.getD_cons_succ]
          exact ih q (by simp at hp; omega)

theorem list_eq_of_getD {α : Type} (d : α) (l₁ l₂ : List α)
    (h : l₁.length = l₂.length)
    (hp : ∀ i, i < l₁.length → l₁.getD i d = l₂.getD i d) : l₁ = l₂ := by
  induction l₁ generalizing l₂ with
  | nil => cases l₂ with
      | nil => rfl
      | cons y ys => simp at h
  | cons x xs ih =>
      cases l₂ with
      | nil => simp at h
      | cons y ys =>
          have h0 := hp 0 (by simp)
          simp only [List.getD_cons_zero] at h0
          have htail := ih ys (by simp at h; omega)
            (fun i hi => by
              have := hp (i + 1) (by simp; omega)
              simpa using this)
          rw [h0, htail]

theorem getD_mem_flatten {α : Type} [Inhabited α] (ms : List (List α))
    (p i : Nat) (d : α) (hp : p < ms.length)
    (hi : i < (ms.getD p []).length) :
    (ms.getD p []).getD i d ∈ ms.flatten := by
  rw [List.mem_flatten]
  refine ⟨ms.getD p [], ?_, ?_⟩
  · rw [List.getD_eq_getElem ms [] hp]
    exact List.getElem_mem hp
  · rw [List.getD_eq_getElem _ d hi]
    exact List.getElem_mem hi

theorem roundtrip_eq_bufs (strat : Rearranger) (n nio : Nat)
    (maps bufs : List (List Int)) (hnio : 0 < nio)
    (hlen : LengthsMatch maps bufs) (hrange : InRange n maps)
    (hcover : ExactCover n maps) :
    roundtrip strat n nio maps bufs = bufs.map (fun b => b.map some) := by
  obtain ⟨hl, hlens⟩ := hlen
  unfold roundtrip
  rw [fileWrite_eq_gather strat n nio maps bufs hnio]
  apply list_eq_of_getD []
  · simp [hl]
  intro p hp
  have hpm : p < maps.length := by simpa using hp
  have hpb : p < bufs.length := by omega
  rw [getD_map _ maps p hpm [], getD_map _ bufs p hpb []]
  apply list_eq_of_getD none
  · unfold readLocal
    rw [List.length_map, List.length_map]
    exact (hlens p hpm).symm
  intro i hi
  have him : i < (maps.getD p []).length := by
    unfold readLocal at hi
    simpa using hi
  have hib : i < (bufs.getD p []).length := by
    rw [hlens p hpm]; exact him
  unfold readLocal
  rw [getD_map _ (maps.getD p []) i him 0, getD_map some (bufs.getD p []) i hib 0]
  have hmem : (maps.getD p []).getD i 0 ∈ maps.flatten :=
    getD_mem_flatten maps p i 0 hpm him
  obtain ⟨hv0, hvn⟩ := hrange _ hmem
  have hvt : ((maps.getD p []).getD i 0).toNat < n := by omega
  have hvcast : ((((maps.getD p []).getD i 0).toNat : Nat) : Int)
      = (maps.getD p []).getD i 0 := Int.toNat_of_nonneg hv0
  unfold gatherFile
  rw [getD_range_map _ _ _ _ hvt, hvcast]
  have h1 : countOcc ((maps.getD p []).getD i 0) maps.flatten = 1 := by
    have := hcover ((maps.getD p []).getD i 0).toNat hvt
    rwa [hvcast] at this
  exact lookupGlobal_of_countOcc_one maps bufs _ p i hpm hl hlens h1 rfl him

/-- Modelled from the spec (§3): the flat size of the global array — the
product of the extents, not counting a record dimension marked unlimited. -/
def prodShape (shape : List Int) (unl : Bool) : Int :=
  (if unl then shape.drop 1 else shape).foldl (fun a e => a * e) 1

/-- Modelled from the spec (§4.1): the global shape has at least one
dimension and every extent is positive, except that the slowest (first)
dimension may be the record dimension marked unlimited. -/
def shapeOK (shape : List Int) (unl : Bool) : Bool :=
  !shape.isEmpty &&
    (List.range shape.length).all
      (fun i => (unl && i == 0) || decide (0 < shape.getD i 0))

/-- Modelled from the spec (§4.1): every local Index Map value lies in
the interval from 0 up to the product of the global shape. -/
def mapOK (shape : List Int) (unl : Bool) (m : List Int) : Bool :=
  m.all (fun v => decide (0 ≤ v) && decide (v < prodShape shape unl))

/-- Decomposition Descriptor (spec §3): global shape, unlimited marker,
the local Index Map and the rearranger strategy tag. -/
structure Decomp where
  globalShape : List Int
  unlimitedRecord : Bool
  localMap : List Int
  strategy : Rearranger
deriving DecidableEq, Repr

/-- Modelled from the spec (§4.1): defineDecomposition validates its inputs
and fails with InvalidDecomposition on a malformed shape or an out-of-range
Index Map value. -/
def defineDecomp (shape : List Int) (unl : Bool) (m : List Int)
    (strat : Rearranger) : Except PIOError Decomp :=
  if shapeOK shape unl && mapOK shape unl m then
    Except.ok ⟨shape, unl, m, strat⟩
  else
    Except.error PIOError.InvalidDecomposition

/-- Modelled from the spec (§4.2, §4.3): the I/O process owning global
offset g — the box containing g under Box, the residue class under Subset. -/
def ownerOf (strat : Rearranger) (n nio : Nat) (g : Nat) : Nat :=
  match strat with
  | .box =>
      ((List.range nio).filter
        (fun k => decide (boxStart n nio (k + 1) ≤ g))).length
  | .subset => g % nio

/-- Modelled from the spec (§3): the Communication Plan — for each compute
process, for each I/O peer, the ordered list of local buffer positions whose
global offsets that peer owns, in local Index Map order. -/
def buildPlan (strat : Rearranger) (n nio : Nat) (maps : List (List Int)) :
    List (List (List Nat)) :=
  maps.map (fun m =>
    (List.range nio).map (fun k =>
      (List.range m.length).filter
        (fun i => ownerOf strat n nio (m.getD i 0).toNat == k)))

/-- Pass-through variable-attribute metadata (spec §6): compression level,
chunk shape, byte order. -/
structure VarMeta where
  deflateLevel : Option Int
  chunkSizes : Option (List Nat)
  bigEndian : Bool
deriving DecidableEq, Repr

/-- State of one open (file, record variable) pair: metadata, the Frame
Tracker's current record index (spec §3, unset by default), and the record
contents held by the backend. -/
structure FileVarState where
  meta : VarMeta
  frame : Option Nat
  records : Nat → List (Option Int)

/-- Modelled from the spec (§4.5): setFrame sets the current record index
for subsequent calls; no I/O is performed. -/
def setFrame (f : Nat) (st : FileVarState) : FileVarState :=
  { st with frame := some f }

/-- Pass-through metadata setter: compression/deflate level (spec §6). -/
def defVarDeflate (lev : Int) (st : FileVarState) : FileVarState :=
  { st with meta := { st.meta with deflateLevel := some lev } }

/-- Pass-through metadata setter: chunk shape (spec §6). -/
def defVarChunking (cs : List Nat) (st : FileVarState) : FileVarState :=
  { st with meta := { st.meta with chunkSizes := some cs } }

/-- Pass-through metadata setter: byte order (spec §6). -/
def defVarEndian (big : Bool) (st : FileVarState) : FileVarState :=
  { st with meta := { st.meta with bigEndian := big } }

/-- Every local buffer length equals its Index Map length (decidable form
of the ShapeMismatch check of spec §4.5). -/
def shapesOK (maps bufs : List (List Int)) : Bool :=
  (bufs.length == maps.length) &&
    (List.range maps.length).all
      (fun q => (bufs.getD q []).length == (maps.getD q []).length)

/-- Modelled from the spec (§4.5): writeDistributedArray resolves the active
frame (MissingFrame if unset for a record variable), checks the local buffer
lengths (ShapeMismatch), rearranges forward and has the I/O processes write
the aggregated data into the current record; other records are untouched. -/
def writeDarray (strat : Rearranger) (n nio : Nat)
    (maps bufs : List (List Int)) (st : FileVarState) :
    Except PIOError FileVarState :=
  match st.frame with
  | none => Except.error PIOError.MissingFrame
  | some f =>
      if shapesOK maps bufs then
        Except.ok { st with records := fun r =>
          if r = f then fileWrite strat n nio maps bufs else st.records r }
      else
        Except.error PIOError.ShapeMismatch

/-- Modelled from the spec (§4.5): readDistributedArray mirrors the write —
the I/O processes read the current record and the backward rearrangement
fills every compute process's out-buffer. -/
def readDarray (maps : List (List Int)) (st : FileVarState) :
    Except PIOError (List (List (Option Int))) :=
  match st.frame with
  | none => Except.error PIOError.MissingFrame
  | some f => Except.ok (maps.map (readLocal (st.records f)))

/-- Persistent (on-disk) content of a closed file: metadata and record
contents survive, session state does not. -/
structure DiskFile where
  meta : VarMeta
  records : Nat → List (Option Int)

/-- Closing a file persists metadata and record contents to the backend. -/
def closeFile (st : FileVarState) : DiskFile :=
  { meta := st.meta, records := st.records }

/-- Reopening a file restores the persisted content; the Frame Tracker of
the new session starts unset (spec §3). -/
def openFile (d : DiskFile) : FileVarState :=
  { meta := d.meta, frame := none, records := d.records }

/-- A fresh open file with nrec-sized empty records. -/
def emptyVarState (n : Nat) : FileVarState :=
  { meta := { deflateLevel := none, chunkSizes := none, bigEndian := false },
    frame := none,
    records := fun _ => List.replicate n none }

/-- Fixed capacity of the process-wide MPI error message buffer
(src/clib/pio_error.c: char err_buffer[MPI_MAX_ERROR_STRING]). -/
def MPI_MAX_ERROR_STRING : Nat := 512

/-- The process-wide mutable MPI error state of src/clib/pio_error.c: one
global buffer err_buffer of capacity MPI_MAX_ERROR_STRING and one global
length variable resultlen, shared by all calls in the process. -/
structure MPIErrState where
  err_buffer : List Char
  resultlen : Nat
deriving DecidableEq, Repr

/-- Modelled from the spec: on each MPI error the error message associated
with that error is stored in the global buffer (truncated to its capacity)
and its length in resultlen, overwriting whatever was stored before
(pio_error.c documents the buffer as holding the most recent message). -/
def recordMPIError (msg : List Char) (_st : MPIErrState) : MPIErrState :=
  { err_buffer := msg.take MPI_MAX_ERROR_STRING,
    resultlen := (msg.take MPI_MAX_ERROR_STRING).length }

/-- An Index Map that is one contiguous ascending block of offsets. -/
def ContigBlock (m : List Int) : Prop :=
  ∀ i, i < m.length → m.getD i 0 = m.getD 0 0 + i

instance (n : Nat) (maps : List (List Int)) : Decidable (ExactCover n maps) :=
  inferInstanceAs (Decidable (∀ g, g < n → countOcc (g : Int) maps.flatten = 1))

instance (n : Nat) (maps : List (List Int)) : Decidable (InRange n maps) :=
  inferInstanceAs (Decidable (∀ v ∈ maps.flatten, 0 ≤ v ∧ v < (n : Int)))

instance (maps bufs : List (List Int)) : Decidable (LengthsMatch maps bufs) :=
  inferInstanceAs (Decidable (bufs.length = maps.length ∧ ∀ q, q < maps.length →
    (bufs.getD q []).length = (maps.getD q []).length))

instance (m : List Int) : Decidable (ContigBlock m) :=
  inferInstanceAs (Decidable (∀ i, i < m.length → m.getD i 0 = m.getD 0 0 + i))

theorem shapeOK_iff (shape : List Int) (unl : Bool) :
    shapeOK shape unl = true ↔
      shape ≠ [] ∧ ∀ i, i < shape.length →
        (unl = true ∧ i = 0) ∨ 0 < shape.getD i 0 := by
  unfold shapeOK
  rw [Bool.and_eq_true, List.all_eq_true]
  constructor
  · rintro ⟨he, hall⟩
    refine ⟨by simpa using he, fun i hi => ?_⟩
    have := hall i (List.mem_range.mpr hi)
    rcases Bool.or_eq_true _ _ |>.mp this with h | h
    · rw [Bool.and_eq_true] at h
      exact Or.inl ⟨h.1, by simpa using h.2⟩
    · exact Or.inr (by simpa using h)
  · rintro ⟨he, hall⟩
    refine ⟨by simpa using he, fun i hi => ?_⟩
    rw [List.mem_range] at hi
    rcases hall i hi with h | h
    · apply Bool.or_eq_true _ _ |>.mpr
      exact Or.inl (by rw [Bool.and_eq_true]; exact ⟨h.1, by simp [h.2]⟩)
    · apply Bool.or_eq_true _ _ |>.mpr
      exact Or.inr (by simpa using h)

theorem mapOK_iff (shape : List Int) (unl : Bool) (m : List Int) :
    mapOK shape unl m = true ↔
      ∀ v ∈ m, 0 ≤ v ∧ v < prodShape shape unl := by
  unfold mapOK
  rw [List.all_eq_true]
  constructor
  · intro h v hv
    have := h v hv
    rw [Bool.and_eq_true] at this
    exact ⟨by simpa using this.1, by simpa using this.2⟩
  · intro h v hv
    rw [Bool.and_eq_true]
    exact ⟨by simp [(h v hv).1], by simp [(h v hv).2]⟩

theorem shapesOK_of_lengthsMatch (maps bufs : List (List Int))
    (h : LengthsMatch maps bufs) : shapesOK maps bufs = true := by
  obtain ⟨hl, hlens⟩ := h
  unfold shapesOK
  rw [Bool.and_eq_true, List.all_eq_true]
  refine ⟨by simp [hl], fun q hq => ?_⟩
  rw [List.mem_range] at hq
  rw [beq_iff_eq]
  exact hlens q hq

theorem lookupGlobal_cons (m : List Int) (ms : List (List Int))
    (b : List Int) (bs : List (List Int)) (g : Int) :
    lookupGlobal (m :: ms) (b :: bs) g =
      match lookupGlobal ms bs g with
      | some v => some v
      | none => lookupPair m b g := rfl

theorem lookupGlobal_insert_empty (ms₁ ms₂ bs₁ bs₂ : List (List Int))
    (h : bs₁.length = ms₁.length) :
    lookupGlobal (ms₁ ++ [] :: ms₂) (bs₁ ++ [] :: bs₂)
      = lookupGlobal (ms₁ ++ ms₂) (bs₁ ++ bs₂) := by
  funext g
  induction ms₁ generalizing bs₁ with
  | nil =>
      cases bs₁ with
      | nil =>
          show lookupGlobal ([] :: ms₂) ([] :: bs₂) g
            = lookupGlobal ms₂ bs₂ g
          rw [lookupGlobal_cons]
          cases hg : lookupGlobal ms₂ bs₂ g <;> simp [lookupPair]
      | cons b bs => simp at h
  | cons m ms ih =>
      cases bs₁ with
      | nil => simp at h
      | cons b bs =>
          show lookupGlobal (m :: (ms ++ [] :: ms₂)) (b :: (bs ++ [] :: bs₂)) g
            = lookupGlobal (m :: (ms ++ ms₂)) (b :: (bs ++ bs₂)) g
          rw [lookupGlobal_cons, lookupGlobal_cons, ih bs (by simp at h; omega)]

theorem fileWrite_insert_empty (strat : Rearranger) (n nio : Nat)
    (ms₁ ms₂ bs₁ bs₂ : List (List Int)) (h : bs₁.length = ms₁.length) :
    fileWrite strat n nio (ms₁ ++ [] :: ms₂) (bs₁ ++ [] :: bs₂)
      = fileWrite strat n nio (ms₁ ++ ms₂) (bs₁ ++ bs₂) := by
  have hfun := lookupGlobal_insert_empty ms₁ ms₂ bs₁ bs₂ h
  cases strat with
  | box =>
      show fileWriteBox n nio _ _ = fileWriteBox n nio _ _
      unfold fileWriteBox aggBufBox
      rw [hfun]
  | subset =>
      show fileWriteSubset n nio _ _ = fileWriteSubset n nio _ _
      unfold fileWriteSubset aggBufSubset
      rw [hfun]

/-- Claim C1: for every Decomposition Descriptor whose per-process Index Maps
together cover each global offset exactly once (with in-range entries and
matching buffer lengths), writing and then reading the same frame returns, on
every compute process, exactly the element values it wrote, element for
element: the round trip is the identity on the local buffers. -/
theorem c1_write_read_roundtrip_identity (strat : Rearranger) (n nio : Nat)
    (maps bufs : List (List Int)) (hnio : 0 < nio)
    (hlen : LengthsMatch maps bufs) (hrange : InRange n maps)
    (hcover : ExactCover n maps) :
    roundtrip strat n nio maps bufs = bufs.map (fun b => b.map some) :=
  roundtrip_eq_bufs strat n nio maps bufs hnio hlen hrange hcover

theorem c1_witness :
    0 < 2 ∧ LengthsMatch [[0, 1], [2, 3]] [[10, 11], [12, 13]] ∧
    InRange 4 [[0, 1], [2, 3]] ∧ ExactCover 4 [[0, 1], [2, 3]] ∧
    roundtrip Rearranger.subset 4 2 [[0, 1], [2, 3]] [[10, 11], [12, 13]]
      = [[some 10, some 11], [some 12, some 13]] :=
  ⟨by decide, by decide, by decide, by decide,
    c1_write_read_roundtrip_identity Rearranger.subset 4 2
      [[0, 1], [2, 3]] [[10, 11], [12, 13]]
      (by decide) (by decide) (by decide) (by decide)⟩

/-- Claim C2: with a 1-D global array of length 4, 4 compute processes where
process r owns exactly one element whose Index Map entry and value both equal
r, 1 I/O process and the Box strategy, a write then a read of the same frame
yields the global array 0,1,2,3 and every compute process reads back its own
value unchanged. -/
theorem c2_concrete_box_scenario :
    ∃ st : FileVarState,
      writeDarray Rearranger.box 4 1 [[0], [1], [2], [3]] [[0], [1], [2], [3]]
        (setFrame 0 (emptyVarState 4)) = Except.ok st ∧
      st.records 0 = [some 0, some 1, some 2, some 3] ∧
      readDarray [[0], [1], [2], [3]] st
        = Except.ok [[some 0], [some 1], [some 2], [some 3]] :=
  ⟨_, rfl, rfl, rfl⟩

/-- Claim C3: Communication Plan construction is a deterministic function of
the Decomposition Descriptor's inputs and the I/O-group partition: building
the plan twice from identical inputs produces identical plans, including
identical per-peer orderings. -/
theorem c3_plan_determinism (strat₁ strat₂ : Rearranger) (n₁ n₂ nio₁ nio₂ : Nat)
    (maps₁ maps₂ : List (List Int)) (hs : strat₁ = strat₂) (hn : n₁ = n₂)
    (hio : nio₁ = nio₂) (hm : maps₁ = maps₂) :
    buildPlan strat₁ n₁ nio₁ maps₁ = buildPlan strat₂ n₂ nio₂ maps₂ ∧
    ∀ p k, ((buildPlan strat₁ n₁ nio₁ maps₁).getD p []).getD k []
        = ((buildPlan strat₂ n₂ nio₂ maps₂).getD p []).getD k [] := by
  subst hs hn hio hm
  exact ⟨rfl, fun _ _ => rfl⟩

theorem c3_witness :
    buildPlan Rearranger.box 4 2 [[0, 1], [2, 3]]
      = buildPlan Rearranger.box 4 2 [[0, 1], [2, 3]] ∧
    ∀ p k, ((buildPlan Rearranger.box 4 2 [[0, 1], [2, 3]]).getD p []).getD k []
        = ((buildPlan Rearranger.box 4 2 [[0, 1], [2, 3]]).getD p []).getD k [] :=
  c3_plan_determinism Rearranger.box Rearranger.box 4 4 2 2
    [[0, 1], [2, 3]] [[0, 1], [2, 3]] rfl rfl rfl rfl

/-- Claim C4: for a decomposition whose per-process ownership forms
contiguous blocks, the full write-then-read round trip under the Box strategy
and under the Subset strategy produces identical results on every compute
process — the strategies differ only in communication pattern, never in the
data values delivered. -/
theorem c4_box_subset_equivalence (n nio : Nat) (maps bufs : List (List Int))
    (hnio : 0 < nio)
    (_hcontig : ∀ p, p < maps.length → ContigBlock (maps.getD p [])) :
    roundtrip Rearranger.box n nio maps bufs
      = roundtrip Rearranger.subset n nio maps bufs := by
  unfold roundtrip
  rw [fileWrite_eq_gather Rearranger.box n nio maps bufs hnio,
    fileWrite_eq_gather Rearranger.subset n nio maps bufs hnio]

theorem c4_witness :
    0 < 1 ∧ (∀ p, p < 4 → ContigBlock ([[0], [1], [2], [3]].getD p [])) ∧
    roundtrip Rearranger.box 4 1 [[0], [1], [2], [3]] [[5], [6], [7], [8]]
      = roundtrip Rearranger.subset 4 1 [[0], [1], [2], [3]] [[5], [6], [7], [8]] :=
  ⟨by decide, by decide,
    c4_box_subset_equivalence 4 1 [[0], [1], [2], [3]] [[5], [6], [7], [8]]
      (by decide) (by decide)⟩

/-- Claim C5: defineDecomposition fails with InvalidDecomposition, and
succeeds otherwise, exactly when its inputs are malformed: the global shape
has zero dimensions, some extent is non-positive without being the record
dimension marked unlimited, or some local Index Map value lies outside the
interval from 0 up to the product of the global shape. -/
theorem c5_defineDecomp_invalid_iff (shape : List Int) (unl : Bool)
    (m : List Int) (strat : Rearranger) :
    defineDecomp shape unl m strat
        = Except.error PIOError.InvalidDecomposition ↔
      shape = [] ∨
      (∃ i, i < shape.length ∧ shape.getD i 0 ≤ 0 ∧ ¬(unl = true ∧ i = 0)) ∨
      (∃ v ∈ m, v < 0 ∨ prodShape shape unl ≤ v) := by
  unfold defineDecomp
  split_ifs with h
  · rw [Bool.and_eq_true] at h
    obtain ⟨hsh, hmp⟩ := h
    rw [shapeOK_iff] at hsh
    rw [mapOK_iff] at hmp
    apply iff_of_false (by simp)
    rintro (h1 | ⟨i, hi, hle, hnot⟩ | ⟨v, hv, hbad⟩)
    · exact hsh.1 h1
    · rcases hsh.2 i hi with hcase | hcase
      · exact hnot hcase
      · omega
    · rcases hmp v hv with ⟨h0, hlt⟩
      rcases hbad with hb | hb <;> omega
  · apply iff_of_true rfl
    rw [Bool.and_eq_true, not_and_or] at h
    rcases h with h | h
    · rw [Bool.not_eq_true] at h
      have hne : ¬ (shape ≠ [] ∧ ∀ i, i < shape.length →
          (unl = true ∧ i = 0) ∨ 0 < shape.getD i 0) := by
        intro hcl
        rw [← shapeOK_iff] at hcl
        rw [h] at hcl
        exact Bool.false_ne_true hcl
      rw [not_and_or] at hne
      rcases hne with hne | hne
      · exact Or.inl (not_not.mp hne)
      · obtain ⟨i, hni⟩ := not_forall.mp hne
        obtain ⟨hi, hnotq⟩ := Classical.not_imp.mp hni
        obtain ⟨hn1, hn2⟩ := not_or.mp hnotq
        exact Or.inr (Or.inl ⟨i, hi, by omega, hn1⟩)
    · rw [Bool.not_eq_true] at h
      have hne : ¬ ∀ v ∈ m, 0 ≤ v ∧ v < prodShape shape unl := by
        intro hcl
        rw [← mapOK_iff] at hcl
        rw [h] at hcl
        exact Bool.false_ne_true hcl
      obtain ⟨v, hnv⟩ := not_forall.mp hne
      obtain ⟨hv, hbad⟩ := Classical.not_imp.mp hnv
      refine Or.inr (Or.inr ⟨v, hv, ?_⟩)
      rcases not_and_or.mp hbad with h0 | h0
      · exact Or.inl (by omega)
      · exact Or.inr (by omega)

/-- Claim C6: writes to distinct frames of a record variable are isolated —
after writing data A at frame 0 and data B at frame 1, reading frame 0 gives
back A and reading frame 1 gives back B, other records are untouched, and
setFrame performs no I/O, changing only the current record index. -/
theorem c6_frame_isolation (strat : Rearranger) (n nio : Nat)
    (maps A B : List (List Int)) (st0 : FileVarState) (hnio : 0 < nio)
    (hlenA : LengthsMatch maps A) (hlenB : LengthsMatch maps B)
    (hrange : InRange n maps) (hcover : ExactCover n maps) :
    ∃ st1 st2 : FileVarState,
      writeDarray strat n nio maps A (setFrame 0 st0) = Except.ok st1 ∧
      writeDarray strat n nio maps B (setFrame 1 st1) = Except.ok st2 ∧
      readDarray maps (setFrame 0 st2)
        = Except.ok (A.map (fun b => b.map some)) ∧
      readDarray maps (setFrame 1 st2)
        = Except.ok (B.map (fun b => b.map some)) ∧
      (∀ r, r ≠ 0 → r ≠ 1 → st2.records r = st0.records r) ∧
      (∀ f st, (setFrame f st).records = st.records ∧
        (setFrame f st).meta = st.meta ∧ (setFrame f st).frame = some f) := by
  have hA := shapesOK_of_lengthsMatch maps A hlenA
  have hB := shapesOK_of_lengthsMatch maps B hlenB
  refine ⟨⟨st0.meta, some 0,
      fun r => if r = 0 then fileWrite strat n nio maps A else st0.records r⟩,
    ⟨st0.meta, some 1,
      fun r => if r = 1 then fileWrite strat n nio maps B
        else if r = 0 then fileWrite strat n nio maps A else st0.records r⟩,
    ?_, ?_, ?_, ?_, ?_, ?_⟩
  · unfold writeDarray setFrame
    rw [hA]
    rfl
  · unfold writeDarray setFrame
    rw [hB]
    rfl
  · show Except.ok (roundtrip strat n nio maps A) = _
    rw [roundtrip_eq_bufs strat n nio maps A hnio hlenA hrange hcover]
  · show Except.ok (roundtrip strat n nio maps B) = _
    rw [roundtrip_eq_bufs strat n nio maps B hnio hlenB hrange hcover]
  · intro r hr0 hr1
    simp [hr0, hr1]
  · intro f st
    exact ⟨rfl, rfl, rfl⟩

theorem c6_witness :
    0 < 1 ∧ LengthsMatch [[0], [1], [2], [3]] [[1], [2], [3], [4]] ∧
    LengthsMatch [[0], [1], [2], [3]] [[5], [6], [7], [8]] ∧
    InRange 4 [[0], [1], [2], [3]] ∧ ExactCover 4 [[0], [1], [2], [3]] ∧
    ∃ st1 st2 : FileVarState,
      writeDarray Rearranger.box 4 1 [[0], [1], [2], [3]] [[1], [2], [3], [4]]
        (setFrame 0 (emptyVarState 4)) = Except.ok st1 ∧
      writeDarray Rearranger.box 4 1 [[0], [1], [2], [3]] [[5], [6], [7], [8]]
        (setFrame 1 st1) = Except.ok st2 ∧
      readDarray [[0], [1], [2], [3]] (setFrame 0 st2)
        = Except.ok [[some 1], [some 2], [some 3], [some 4]] ∧
      readDarray [[0], [1], [2], [3]] (setFrame 1 st2)
        = Except.ok [[some 5], [some 6], [some 7], [some 8]] :=
  ⟨by decide, by decide, by decide, by decide, by decide, by
    obtain ⟨st1, st2, h1, h2, h3, h4, _, _⟩ :=
      c6_frame_isolation Rearranger.box 4 1 [[0], [1], [2], [3]]
        [[1], [2], [3], [4]] [[5], [6], [7], [8]] (emptyVarState 4)
        (by decide) (by decide) (by decide) (by decide) (by decide)
    exact ⟨st1, st2, h1, h2, h3, h4⟩⟩

/-- Claim C7: variable-attribute metadata settings (deflate level, chunk
shape, byte order) are pass-through — they change only the stored metadata,
and for every decomposition a write followed by a read with all three
settings applied returns values equal to those written, element for
element. -/
theorem c7_metadata_passthrough (strat : Rearranger) (n nio : Nat)
    (maps bufs : List (List Int)) (lev : Int) (cs : List Nat) (big : Bool)
    (st0 : FileVarState) (hnio : 0 < nio) (hlen : LengthsMatch maps bufs)
    (hrange : InRange n maps) (hcover : ExactCover n maps) :
    (∀ st : FileVarState,
      (defVarDeflate lev st).records = st.records ∧
      (defVarChunking cs st).records = st.records ∧
      (defVarEndian big st).records = st.records ∧
      (defVarDeflate lev st).frame = st.frame ∧
      (defVarChunking cs st).frame = st.frame ∧
      (defVarEndian big st).frame = st.frame) ∧
    ∃ st1 : FileVarState,
      writeDarray strat n nio maps bufs
        (setFrame 0 (defVarEndian big (defVarChunking cs
          (defVarDeflate lev st0)))) = Except.ok st1 ∧
      st1.meta = ⟨some lev, some cs, big⟩ ∧
      readDarray maps st1 = Except.ok (bufs.map (fun b => b.map some)) := by
  have hok := shapesOK_of_lengthsMatch maps bufs hlen
  refine ⟨fun st => ⟨rfl, rfl, rfl, rfl, rfl, rfl⟩,
    ⟨⟨some lev, some cs, big⟩, some 0,
      fun r => if r = 0 then fileWrite strat n nio maps bufs
        else st0.records r⟩, ?_, rfl, ?_⟩
  · unfold writeDarray setFrame defVarEndian defVarChunking defVarDeflate
    rw [hok]
    rfl
  · show Except.ok (roundtrip strat n nio maps bufs) = _
    rw [roundtrip_eq_bufs strat n nio maps bufs hnio hlen hrange hcover]

theorem c7_witness :
    0 < 1 ∧ LengthsMatch [[0], [1], [2], [3]] [[4], [3], [2], [1]] ∧
    InRange 4 [[0], [1], [2], [3]] ∧ ExactCover 4 [[0], [1], [2], [3]] ∧
    ∃ st1 : FileVarState,
      writeDarray Rearranger.box 4 1 [[0], [1], [2], [3]] [[4], [3], [2], [1]]
        (setFrame 0 (defVarEndian true (defVarChunking [1, 1, 1]
          (defVarDeflate 4 (emptyVarState 4))))) = Except.ok st1 ∧
      st1.meta = ⟨some 4, some [1, 1, 1], true⟩ ∧
      readDarray [[0], [1], [2], [3]] st1
        = Except.ok [[some 4], [some 3], [some 2], [some 1]] :=
  ⟨by decide, by decide, by decide, by decide, by
    obtain ⟨_, st1, h1, h2, h3⟩ :=
      c7_metadata_passthrough Rearranger.box 4 1 [[0], [1], [2], [3]]
        [[4], [3], [2], [1]] 4 [1, 1, 1] true (emptyVarState 4)
        (by decide) (by decide) (by decide) (by decide)
    exact ⟨st1, h1, h2, h3⟩⟩

/-- Claim C8: a process whose Index Map has length zero is accepted without
error by every operation — defineDecomposition succeeds for it, the shape
check of the write/read path passes, it contributes no data elements (the
global result is unchanged by inserting it), and its own read-back is the
empty buffer. -/
theorem c8_empty_map_ok (strat : Rearranger) (n nio : Nat)
    (ms₁ ms₂ bs₁ bs₂ : List (List Int)) (shape : List Int) (unl : Bool)
    (hlen1 : bs₁.length = ms₁.length) (hok : shapeOK shape unl = true)
    (hlen : LengthsMatch (ms₁ ++ [] :: ms₂) (bs₁ ++ [] :: bs₂)) :
    defineDecomp shape unl [] strat = Except.ok ⟨shape, unl, [], strat⟩ ∧
    shapesOK (ms₁ ++ [] :: ms₂) (bs₁ ++ [] :: bs₂) = true ∧
    fileWrite strat n nio (ms₁ ++ [] :: ms₂) (bs₁ ++ [] :: bs₂)
      = fileWrite strat n nio (ms₁ ++ ms₂) (bs₁ ++ bs₂) ∧
    readLocal (fileWrite strat n nio (ms₁ ++ [] :: ms₂) (bs₁ ++ [] :: bs₂)) []
      = [] := by
  refine ⟨?_, shapesOK_of_lengthsMatch _ _ hlen,
    fileWrite_insert_empty strat n nio ms₁ ms₂ bs₁ bs₂ hlen1, rfl⟩
  unfold defineDecomp
  rw [hok]
  rfl

theorem c8_witness :
    ([[9, 8]] : List (List Int)).length = ([[0, 1]] : List (List Int)).length ∧
    shapeOK [4] false = true ∧
    LengthsMatch ([[0, 1]] ++ [] :: [[2, 3]]) ([[9, 8]] ++ [] :: [[7, 6]]) ∧
    defineDecomp [4] false [] Rearranger.box
      = Except.ok ⟨[4], false, [], Rearranger.box⟩ ∧
    fileWrite Rearranger.box 4 1 ([[0, 1]] ++ [] :: [[2, 3]])
        ([[9, 8]] ++ [] :: [[7, 6]])
      = fileWrite Rearranger.box 4 1 ([[0, 1]] ++ [[2, 3]])
        ([[9, 8]] ++ [[7, 6]]) :=
  ⟨by decide, by decide, by decide, by
    obtain ⟨h1, _, h3, _⟩ :=
      c8_empty_map_ok Rearranger.box 4 1 [[0, 1]] [[2, 3]] [[9, 8]] [[7, 6]]
        [4] false (by decide) (by decide) (by decide)
    exact ⟨h1, h3⟩⟩

/-- Claim C9: the write-then-read round trip holds across file close and
reopen — after writing with a frame set and closing the file, reopening it
(which starts with the Frame Tracker unset), setting the same frame and
reading returns the written values element for element on every compute
process. -/
theorem c9_close_reopen_roundtrip (strat : Rearranger) (n nio : Nat)
    (maps bufs : List (List Int)) (st0 : FileVarState) (f : Nat)
    (hnio : 0 < nio) (hlen : LengthsMatch maps bufs)
    (hrange : InRange n maps) (hcover : ExactCover n maps) :
    ∃ st1 : FileVarState,
      writeDarray strat n nio maps bufs (setFrame f st0) = Except.ok st1 ∧
      (openFile (closeFile st1)).frame = none ∧
      readDarray maps (setFrame f (openFile (closeFile st1)))
        = Except.ok (bufs.map (fun b => b.map some)) := by
  have hok := shapesOK_of_lengthsMatch maps bufs hlen
  refine ⟨⟨st0.meta, some f,
      fun r => if r = f then fileWrite strat n nio maps bufs
        else st0.records r⟩, ?_, rfl, ?_⟩
  · unfold writeDarray setFrame
    rw [hok]
    rfl
  · unfold readDarray setFrame openFile closeFile
    simp only
    rw [if_pos trivial]
    show Except.ok (roundtrip strat n nio maps bufs) = _
    rw [roundtrip_eq_bufs strat n nio maps bufs hnio hlen hrange hcover]

theorem c9_witness :
    0 < 1 ∧ LengthsMatch [[0], [1], [2], [3]] [[6], [7], [8], [9]] ∧
    InRange 4 [[0], [1], [2], [3]] ∧ ExactCover 4 [[0], [1], [2], [3]] ∧
    ∃ st1 : FileVarState,
      writeDarray Rearranger.box 4 1 [[0], [1], [2], [3]] [[6], [7], [8], [9]]
        (setFrame 0 (emptyVarState 4)) = Except.ok st1 ∧
      (openFile (closeFile st1)).frame = none ∧
      readDarray [[0], [1], [2], [3]] (setFrame 0 (openFile (closeFile st1)))
        = Except.ok [[some 6], [some 7], [some 8], [some 9]] :=
  ⟨by decide, by decide, by decide, by decide,
    c9_close_reopen_roundtrip Rearranger.box 4 1 [[0], [1], [2], [3]]
      [[6], [7], [8], [9]] (emptyVarState 4) 0
      (by decide) (by decide) (by decide) (by decide)⟩

/-- Claim C10: MPI error reporting uses one process-wide buffer of fixed
capacity MPI_MAX_ERROR_STRING and one global length variable shared by all
calls — each new MPI error overwrites the stored message and length
(last-error-wins), the stored state is independent of what was stored
before, the buffer never exceeds its capacity, and the length variable
always holds the stored message's length. -/
theorem c10_mpi_error_last_wins (m₁ m₂ : List Char) (st st' : MPIErrState) :
    recordMPIError m₂ (recordMPIError m₁ st) = recordMPIError m₂ st ∧
    recordMPIError m₁ st = recordMPIError m₁ st' ∧
    (recordMPIError m₁ st).err_buffer.length ≤ MPI_MAX_ERROR_STRING ∧
    (recordMPIError m₁ st).resultlen
      = (recordMPIError m₁ st).err_buffer.length := by
  refine ⟨rfl, rfl, ?_, rfl⟩
  simp only [recordMPIError, List.length_take]
  exact Nat.min_le_left _ _

end PIO
